import Mathlib

/-!
Verification development for the gitzip tool (src/src/gitzip/gitzip.py).

The program is embedded shallowly:

* POSIX paths (`pathlib.Path` values) are modelled by `Gz.PyPath`: an
  absolute-flag plus the list of path components, exactly the information
  `PurePosixPath` keeps after its own parsing (empty and "." components are
  dropped at construction, ".." is kept).
* The filesystem is a record of pure query functions (`Gz.FS`); the model
  assumes a symlink-free filesystem, so `Path.resolve()` is textual
  normalization against the current working directory.
* Side effects (subprocess invocations, opening/closing handles, archive
  writes, per-file console notices) are reified as an event trace
  (`Gz.Ev`); exceptions are an `Except` result (`Gz.GErr`).

Every definition below follows the corresponding Python function of the
source; deviations that the modelling forces (no symlinks, total
environment lookups) are noted at the definition.
-/

namespace Gz

/-- Model of a `pathlib.PurePosixPath`: the absolute flag (presence of the
leading "/" root) and the parsed components.  The POSIX double-slash root
special case is not modelled. -/
structure PyPath where
  absolute : Bool
  comps : List String
  deriving DecidableEq, Repr

/-- Splits a character list at a separator; returns the first group and the
remaining groups, so that the full group list is always nonempty. -/
def splitOnCharAux (sep : Char) : List Char → List Char × List (List Char)
  | [] => ([], [])
  | c :: rest =>
    let r := splitOnCharAux sep rest
    if c = sep then ([], r.1 :: r.2) else (c :: r.1, r.2)

/-- All groups obtained by splitting at the separator. -/
def splitOnChar (sep : Char) (l : List Char) : List (List Char) :=
  (splitOnCharAux sep l).1 :: (splitOnCharAux sep l).2

/-- Joins character groups with the separator between them (inverse of
`splitOnChar` on separator-free, nonempty groups). -/
def joinChar (sep : Char) : List (List Char) → List Char
  | [] => []
  | [g] => g
  | g :: gs => g ++ sep :: joinChar sep gs

/-- Model of `pathlib.Path(s)` construction: splits on "/", records whether
the path is absolute, and drops empty and "." components — exactly what
`PurePosixPath` parsing does ("." parts are removed at construction, ".."
parts are kept). -/
def parsePath (s : String) : PyPath :=
  ⟨(match s.toList with
    | '/' :: _ => true
    | _ => false),
    ((splitOnChar '/' s.toList).filter (fun g => g ≠ [] ∧ g ≠ ['.'])).map String.mk⟩

/-- Model of `str(path)` for a `pathlib` path: components joined with "/",
with the leading root for absolute paths; the empty relative path prints
as ".". -/
def PyPath.toStr (p : PyPath) : String :=
  if p.absolute then String.mk ('/' :: joinChar '/' (p.comps.map String.toList))
  else if p.comps = [] then "."
  else String.mk (joinChar '/' (p.comps.map String.toList))

/-- Model of `Path.name`: the final path component, or "" when there is
none (e.g. the root). -/
def PyPath.name (p : PyPath) : String := p.comps.getLast?.getD ""

/-- Model of `Path.parents`: every strict ancestor of the path, i.e. all
proper component prefixes with the same root (order is irrelevant here; only
membership is used by the source). -/
def PyPath.parents (p : PyPath) : List PyPath :=
  (List.range p.comps.length).map (fun k => ⟨p.absolute, p.comps.take k⟩)

/-- Model of the source's membership test `rel_path in absolute_source_path.parents`
(gitzip.py line 135), using `pathlib` path equality (component-wise). -/
def inParents (rel p : PyPath) : Bool := decide (rel ∈ p.parents)

/-- Model of `p.relative_to(base)` (gitzip.py line 137).  In the source it is
only called when `base` is a member of `p.parents`, where it drops the
ancestor prefix; `pathlib` would raise `ValueError` otherwise. -/
def relative_to (p base : PyPath) : PyPath :=
  ⟨false, p.comps.drop base.comps.length⟩

/-- Target-path computation of `create_zip_file` (gitzip.py lines 133-141):
a path below the working directory keeps its relative structure, anything
else is flattened to its base name. -/
def targetOf (rel p : PyPath) : PyPath :=
  if inParents rel p then relative_to p rel else ⟨false, [p.name]⟩

/-- Normalization of an absolute component list: "." and empty components
vanish, ".." pops the previous component (and is dropped at the root, as on
POSIX "/.." = "/"). -/
def normAbsAux : List String → List String → List String
  | acc, [] => acc
  | acc, c :: rest =>
    if c = "" ∨ c = "." then normAbsAux acc rest
    else if c = ".." then normAbsAux acc.dropLast rest
    else normAbsAux (acc ++ [c]) rest

/-- Normalized form of an absolute path's components. -/
def normAbs (cs : List String) : List String := normAbsAux [] cs

/-- Ambient process environment of the program: the current working
directory string (`os.getcwd()`, always absolute in practice), the home
directory lookup backing `Path.expanduser` ("" is the current user, any
other string a named user; modelled total), and the environment variables
(used only by the spec-side resolver, since the source's `expand_path`
never consults them). -/
structure Env where
  cwd : String
  homedir : String → String
  vars : String → Option String

/-- Whether a component begins with a tilde (the `pathlib.Path.expanduser`
trigger). -/
def startsWithTilde (c : String) : Bool :=
  match c.toList with
  | '~' :: _ => true
  | _ => false

/-- Model of `Path.expanduser()`: a relative path whose first component
starts with "~" has that component replaced by the (parsed) home directory
of the named user; everything else is returned unchanged. -/
def expanduserP (env : Env) (p : PyPath) : PyPath :=
  match p with
  | ⟨true, _⟩ => p
  | ⟨false, []⟩ => p
  | ⟨false, c :: rest⟩ =>
    if startsWithTilde c then
      let h := parsePath (env.homedir (String.mk (c.toList.drop 1)))
      ⟨h.absolute, h.comps ++ rest⟩
    else ⟨false, c :: rest⟩

/-- Model of `Path.resolve()` on a symlink-free filesystem: join a relative
path onto the current working directory and normalize; the result is always
absolute and never requires the path to exist. -/
def resolveP (env : Env) (p : PyPath) : PyPath :=
  if p.absolute then ⟨true, normAbs p.comps⟩
  else ⟨true, normAbs ((parsePath env.cwd).comps ++ p.comps)⟩

/-- Embedding of `expand_path` (gitzip.py lines 112-113):
`Path(path).expanduser().resolve()`. -/
def expand_path (env : Env) (path : String) : PyPath :=
  resolveP env (expanduserP env (parsePath path))

/-- Resolved working directory `Path(getcwd()).resolve()` used by
`create_zip_file` as the relativization parent (gitzip.py line 128). -/
def relPathOf (env : Env) : PyPath := resolveP env (parsePath env.cwd)

/-- Pure view of the filesystem at build time: existence (`Path.exists`),
regular-file test (`Path.is_file`), file bytes, and the text of readable
text files (`open(..., "r")`, `None` when opening would raise). -/
structure FS where
  pathExists : PyPath → Bool
  isfile : PyPath → Bool
  content : PyPath → List Nat
  fileText : PyPath → Option String

/-- The exceptions the program can raise out of `run`:
`MissingToCommitException`, `FileExistsError` (both caught in `main`), and
an uncaught I/O error from `open` on the manifest path. -/
inductive GErr where
  | missingToCommit
  | fileExists
  | ioError
  deriving DecidableEq, Repr

/-- Observable side effects of a run, in program order: subprocess
invocations, handle open/close, the archive lifecycle, archive entry
writes, and the per-file console notices. -/
inductive Ev where
  | gitExec (cmd : List String)
  | openManifest (p : PyPath)
  | closeManifest
  | openArchive (p : PyPath) (comment : String)
  | noticeFlatten (p : PyPath)
  | writeEntry (source : PyPath) (target : PyPath) (data : List Nat)
  | noticeAdded (p : PyPath)
  | noticeSkip (p : PyPath)
  | closeArchive
  deriving DecidableEq, Repr

/-- Loop body of `create_zip_file` (gitzip.py lines 130-156) for one
candidate path string: resolve it, classify it against the resolved working
directory, then either write it into the archive (with a flatten notice
when it lies outside) or emit the skip notice. -/
def processCandidate (env : Env) (fs : FS) (rel : PyPath) (source_path : String) :
    List Ev :=
  let p := expand_path env source_path
  if fs.isfile p then
    (if inParents rel p then [] else [Ev.noticeFlatten p]) ++
      [Ev.writeEntry p (targetOf rel p) (fs.content p), Ev.noticeAdded p]
  else [Ev.noticeSkip p]

/-- Events of the whole candidate loop, in candidate order. -/
def candidateEvents (env : Env) (fs : FS) (rel : PyPath) : List String → List Ev
  | [] => []
  | c :: rest => processCandidate env fs rel c ++ candidateEvents env fs rel rest

/-- Embedding of `create_zip_file` (gitzip.py lines 116-158): the
pre-existence check happens before the archive is opened; afterwards the
archive is opened with its comment, the candidates are processed in order,
and the archive is closed.  The returned trace contains every effect in
program order. -/
def create_zip_file (env : Env) (fs : FS) (files : List String) (zip_path : PyPath)
    (zip_comment : String) (overwrite : Bool) : List Ev × Except GErr Unit :=
  if overwrite = false ∧ fs.pathExists zip_path = true then
    ([], .error .fileExists)
  else
    (Ev.openArchive zip_path zip_comment ::
        candidateEvents env fs (relPathOf env) files ++ [Ev.closeArchive],
      .ok ())

/-- Archive entries recorded in a trace: (source, in-archive target, bytes)
per `ZipFile.write` call. -/
def entriesOf (evs : List Ev) : List (PyPath × PyPath × List Nat) :=
  evs.filterMap (fun e =>
    match e with
    | .writeEntry s t d => some (s, t, d)
    | _ => none)

/-- Whether an event is a subprocess invocation. -/
def isGitExecEv : Ev → Bool
  | .gitExec _ => true
  | _ => false

/-- Whether an event closes the manifest file handle. -/
def isCloseManifestEv : Ev → Bool
  | .closeManifest => true
  | _ => false

/-- Iterating an open Python text file yields its lines with the trailing
newline kept on every line except a final unterminated one; an empty file
yields no lines. -/
def pyLinesAux (acc : List Char) : List Char → List (List Char)
  | [] => if acc = [] then [] else [acc.reverse]
  | c :: rest =>
    if c = '\n' then (acc.reverse ++ ['\n']) :: pyLinesAux [] rest
    else pyLinesAux (c :: acc) rest

/-- Lines of a text file as Python file iteration produces them. -/
def pyLines (s : String) : List String := (pyLinesAux [] s.toList).map String.mk

/-- Oracle for subprocess standard output, keyed by the command line; the
model's `exec` always obtains the stream (the `CommandOutputUnavailable`
fault of the spec is an environment failure outside the model). -/
structure Sys where
  stdout : List String → String

/-- Python `str.strip` whitespace set. -/
def isPySpace (c : Char) : Bool :=
  c = ' ' ∨ c = '\t' ∨ c = '\n' ∨ c = '\r' ∨ c = '\x0b' ∨ c = '\x0c'

/-- Model of Python `str.strip()`. -/
def pyStrip (s : String) : String :=
  String.mk (((s.toList.dropWhile isPySpace).reverse.dropWhile isPySpace).reverse)

/-- Consumes an expected literal from the front of the input, if present. -/
def stripLit : List Char → List Char → Option (List Char)
  | [], l => some l
  | _ :: _, [] => none
  | c :: cs, x :: xs => if x = c then stripLit cs xs else none

/-- Numeric value of a digit string (Python `int` on the regex group). -/
def digitsToNat (ds : List Char) : Nat :=
  ds.foldl (fun a c => 10 * a + (c.toNat - 48)) 0

/-- Anchored match of the source regex `git\s*version((?:[\d]+\.){2}[\d]+)`
(gitzip.py line 17) followed by the `tuple(map(int, ...))` conversion of
`get_git_version`.  Note the regex demands the digits directly after the
literal "version", so real `git --version` output ("git version 2.39.2",
with a space) never matches — faithfully preserved here. -/
def matchGitVersion (l : List Char) : Option (Nat × Nat × Nat) :=
  match stripLit ['g', 'i', 't'] l with
  | none => none
  | some r1 =>
    match stripLit ['v', 'e', 'r', 's', 'i', 'o', 'n'] (r1.dropWhile isPySpace) with
    | none => none
    | some r2 =>
      let d1 := r2.takeWhile Char.isDigit
      if d1 = [] then none
      else
        match r2.dropWhile Char.isDigit with
        | '.' :: r4 =>
          let d2 := r4.takeWhile Char.isDigit
          if d2 = [] then none
          else
            match r4.dropWhile Char.isDigit with
            | '.' :: r6 =>
              let d3 := r6.takeWhile Char.isDigit
              if d3 = [] then none
              else some (digitsToNat d1, digitsToNat d2, digitsToNat d3)
            | _ => none
        | _ => none

/-- Embedding of `get_git_version` (gitzip.py lines 60-70): runs
`git --version` and parses it; `none` models the `VersionNotFound` raise. -/
def get_git_version (sys : Sys) : List Ev × Option (Nat × Nat × Nat) :=
  ([Ev.gitExec ["git", "--version"]],
    matchGitVersion (sys.stdout ["git", "--version"]).toList)

/-- Embedding of `get_current_branch` (gitzip.py lines 73-91): a failed
version lookup falls back to (0,0,0); the branch command is chosen by the
source's strict comparisons against (2, 22) (the length guard is always
satisfied since the parsed tuple has three entries). -/
def get_current_branch (sys : Sys) : List Ev × String :=
  let v := (get_git_version sys).2.getD (0, 0, 0)
  let cmd := if 2 < v.1 ∧ 22 < v.2.1 then ["git", "branch", "--show-current"]
    else ["git", "rev-parse", "--abbrev-ref", "HEAD"]
  ((get_git_version sys).1 ++ [Ev.gitExec cmd], pyStrip (sys.stdout cmd))

/-- Embedding of `get_current_commit` (gitzip.py lines 94-95). -/
def get_current_commit (sys : Sys) : List Ev × String :=
  ([Ev.gitExec ["git", "rev-parse", "HEAD"]],
    pyStrip (sys.stdout ["git", "rev-parse", "HEAD"]))

/-- Python truthiness of an optional string argument (`argparse` gives
`None` when absent; the empty string is also falsy). -/
def truthy : Option String → Bool
  | none => false
  | some s => s ≠ ""

/-- Rendering of an optional string inside a Python f-string (`None` prints
as "None"). -/
def optStr : Option String → String
  | none => "None"
  | some s => s

/-- Embedding of `get_files_from_git` (gitzip.py lines 98-109): builds the
name-only diff command (the second reference only when truthy), splits the
captured stdout on newlines and drops empty lines. -/
def get_files_from_git (sys : Sys) (commit : String) (commit2 : Option String) :
    List Ev × List String :=
  let cmd := ["git", "diff", commit] ++
    (if truthy commit2 then [commit2.getD ""] else []) ++ ["--name-only"]
  ([Ev.gitExec cmd], ((sys.stdout cmd).splitOn "\n").filter (fun x => x ≠ ""))

/-- Resolved CLI options handed to `run` (the `argparse` Namespace):
positional references are `None` when omitted, the manifest path is set
only when text mode is selected. -/
structure Args where
  zip_path : PyPath
  commit : Option String
  commit2 : Option String
  text_file : Option PyPath
  force : Bool
  deriving DecidableEq, Repr

/-- Embedding of `run` (gitzip.py lines 161-215).  Manifest mode opens the
text file (its lines, newline included, become the candidates; the handle
is never explicitly closed in the source) and never touches git; diff mode
first raises `MissingToCommitException` when no first reference is truthy,
otherwise builds the comment, runs the warning-related git probes when a
second reference is given (their console warning is pure logging and not
modelled), obtains the diff file list, and builds the archive.  The
verbose-mode `tuple(files)` materialization only affects logging and is
not observable here. -/
def run (env : Env) (fs : FS) (sys : Sys) (args : Args) :
    List Ev × Except GErr Unit :=
  match args.text_file with
  | some tf =>
    match fs.fileText tf with
    | none => ([], .error .ioError)
    | some txt =>
      let zip_comment := "Files from " ++ tf.toStr
      let r := create_zip_file env fs (pyLines txt) args.zip_path zip_comment args.force
      (Ev.openManifest tf :: r.1, r.2)
  | none =>
    if truthy args.commit = false then ([], .error .missingToCommit)
    else
      let c := args.commit.getD ""
      let zip_comment :=
        if truthy args.commit then
          "Files from git diff " ++ c ++ ".." ++ optStr args.commit2
        else "Files from git diff HEAD.." ++ c
      let warnEvs :=
        if truthy args.commit2 then
          (get_current_branch sys).1 ++ (get_current_commit sys).1
        else []
      let d := get_files_from_git sys c args.commit2
      let r := create_zip_file env fs d.2 args.zip_path zip_comment args.force
      (warnEvs ++ d.1 ++ r.1, r.2)

/-- Exit code for a missing reference/manifest (gitzip.py line 21). -/
def EXIT_CODE_NOT_ENOUGH_ARGUMENTS : Nat := 2

/-- Exit code for a pre-existing archive path (gitzip.py line 22). -/
def EXIT_CODE_FILE_EXISTS : Nat := 4

/-- Embedding of `main` (gitzip.py lines 300-317) after argument parsing:
invokes `run`, maps `MissingToCommitException` and `FileExistsError` to
their dedicated exit codes, falls through with exit status 0 on success;
any other uncaught exception terminates the interpreter with status 1. -/
def main (env : Env) (fs : FS) (sys : Sys) (args : Args) : List Ev × Nat :=
  let r := run env fs sys args
  match r.2 with
  | .ok _ => (r.1, 0)
  | .error .missingToCommit => (r.1, EXIT_CODE_NOT_ENOUGH_ARGUMENTS)
  | .error .fileExists => (r.1, EXIT_CODE_FILE_EXISTS)
  | .error .ioError => (r.1, 1)

/-- Value substituted for a component that is exactly a "$NAME" reference
to a set environment variable (written for the spec-side resolver below;
the source never consults variables). -/
def varSubst (env : Env) (c : String) : Option PyPath :=
  match c.toList with
  | '$' :: name =>
    match env.vars (String.mk name) with
    | some v => some (parsePath v)
    | none => none
  | _ => none

/-- Substitutes variable references in every component, splicing in the
components of each substituted value. -/
def substComps (env : Env) (cs : List String) : List String :=
  cs.foldr (fun c acc =>
    (match varSubst env c with
      | some q => q.comps
      | none => [c]) ++ acc) []

/-- Component-wise model of `os.path.expandvars` string semantics: variable
references are replaced by their values; a relative path whose first
component expands to an absolute value becomes absolute, as the expanded
string then starts with the separator. -/
def expandVarsSpec (env : Env) (p : PyPath) : PyPath :=
  match p with
  | ⟨true, cs⟩ => ⟨true, substComps env cs⟩
  | ⟨false, []⟩ => ⟨false, []⟩
  | ⟨false, c :: rest⟩ =>
    match varSubst env c with
    | some q => ⟨q.absolute, q.comps ++ substComps env rest⟩
    | none => ⟨false, c :: substComps env rest⟩

/-- Resolver following the spec's words (§4.1): "Expands user-home (`~`)
references and environment-variable references embedded in the string, then
resolves the result to an absolute, normalized path relative to the current
working directory if the input was relative."  Kept for comparison with the
source's `expand_path`, which performs no variable expansion. -/
def resolveSpec (env : Env) (s : String) : PyPath :=
  resolveP env (expanduserP env (expandVarsSpec env (parsePath s)))

/-- Components that can occur in a parsed path: nonempty, not the "."
component (dropped at construction), and free of the separator. -/
def goodComp (c : String) : Prop := c ≠ "" ∧ c ≠ "." ∧ '/' ∉ c.toList

/-- Concrete process environment used by witnesses: working directory
`/repo`, home `/home/user`, one set environment variable `HOME`. -/
def envW : Env :=
  ⟨"/repo", fun _ => "/home/user",
    fun n => if n = "HOME" then some "/home/user" else none⟩

/-- Subprocess oracle used by witnesses (its output is never consulted on
the runs under test). -/
def sysW : Sys := ⟨fun _ => ""⟩

/-- Filesystem whose only regular file is `/etc/passwd` (outside `/repo`). -/
def fsOutside : FS :=
  ⟨fun _ => false, fun p => p = ⟨true, ["etc", "passwd"]⟩, fun _ => [1],
    fun _ => none⟩

/-- Filesystem on which every path already exists. -/
def fsAllExist : FS := ⟨fun _ => true, fun _ => false, fun _ => [], fun _ => none⟩

/-- Filesystem whose only regular file is `/repo/a.txt`. -/
def fsOneFile : FS :=
  ⟨fun _ => false, fun p => p = ⟨true, ["repo", "a.txt"]⟩, fun _ => [7],
    fun _ => none⟩

/-- Manifest path used by the round-trip scenario. -/
def manifestPath : PyPath := ⟨false, ["files.txt"]⟩

/-- Filesystem of the round-trip scenario: regular files `/repo/a.txt` and
`/repo/sub/b.txt`, and a manifest `files.txt` whose two lines name them
(the text file is newline-terminated, as text files conventionally are). -/
def fsManifest : FS :=
  ⟨fun _ => false,
    fun p => p = ⟨true, ["repo", "a.txt"]⟩ ∨ p = ⟨true, ["repo", "sub", "b.txt"]⟩,
    fun p =>
      if p = ⟨true, ["repo", "a.txt"]⟩ then [97]
      else if p = ⟨true, ["repo", "sub", "b.txt"]⟩ then [98]
      else [],
    fun p => if p = manifestPath then some "a.txt\nsub/b.txt\n" else none⟩

/-- CLI options of the round-trip scenario: manifest mode on `files.txt`,
archive `out.zip`, no overwrite. -/
def argsManifest : Args :=
  ⟨⟨false, ["out.zip"]⟩, none, none, some manifestPath, false⟩

/-- CLI options with neither a manifest nor any reference. -/
def argsMissing : Args := ⟨⟨false, ["out.zip"]⟩, none, none, none, false⟩

/-- Membership in `Path.parents` is exactly the component-wise proper-prefix
relation (same root, component prefix, strictly shorter) — the classification
the source's `rel_path in absolute_source_path.parents` performs. -/
theorem inParents_iff (rel p : PyPath) :
    inParents rel p = true ↔
      rel.absolute = p.absolute ∧ rel.comps <+: p.comps ∧
        rel.comps.length < p.comps.length := by
  rw [inParents, decide_eq_true_iff]
  unfold PyPath.parents
  rw [List.mem_map]
  constructor
  · rintro ⟨k, hk, rfl⟩
    rw [List.mem_range] at hk
    refine ⟨rfl, ⟨p.comps.drop k, List.take_append_drop k p.comps⟩, ?_⟩
    simpa [List.length_take] using hk
  · rintro ⟨habs, ⟨t, ht⟩, hlen⟩
    refine ⟨rel.comps.length, ?_, ?_⟩
    · rwa [List.mem_range]
    · have htake : p.comps.take rel.comps.length = rel.comps := by
        rw [← ht, List.take_left]
      cases rel with
      | mk a cs => simp_all

/-- A candidate-loop step emits only archive writes and console notices. -/
theorem mem_processCandidate (env : Env) (fs : FS) (rel : PyPath) (c : String)
    (e : Ev) (h : e ∈ processCandidate env fs rel c) :
    (∃ p t d, e = Ev.writeEntry p t d) ∨ (∃ p, e = Ev.noticeFlatten p) ∨
      (∃ p, e = Ev.noticeAdded p) ∨ (∃ p, e = Ev.noticeSkip p) := by
  unfold processCandidate at h
  by_cases hf : fs.isfile (expand_path env c) = true
  · rw [if_pos hf] at h
    rw [List.mem_append] at h
    rcases h with h | h
    · by_cases hin : inParents rel (expand_path env c) = true
      · rw [if_pos hin] at h
        simp at h
      · rw [if_neg hin] at h
        rw [List.mem_singleton] at h
        exact Or.inr (Or.inl ⟨_, h⟩)
    · rcases List.mem_pair.mp h with h | h
      · exact Or.inl ⟨_, _, _, h⟩
      · exact Or.inr (Or.inr (Or.inl ⟨_, h⟩))
  · rw [if_neg hf] at h
    rw [List.mem_singleton] at h
    exact Or.inr (Or.inr (Or.inr ⟨_, h⟩))

/-- The candidate loop distributes over list append. -/
theorem candidateEvents_append (env : Env) (fs : FS) (rel : PyPath)
    (l₁ l₂ : List String) :
    candidateEvents env fs rel (l₁ ++ l₂) =
      candidateEvents env fs rel l₁ ++ candidateEvents env fs rel l₂ := by
  induction l₁ with
  | nil => simp [candidateEvents]
  | cons c rest ih => simp [candidateEvents, ih]

/-- Every event of the candidate loop comes from some candidate's step. -/
theorem mem_candidateEvents (env : Env) (fs : FS) (rel : PyPath)
    (l : List String) (e : Ev) (h : e ∈ candidateEvents env fs rel l) :
    ∃ c ∈ l, e ∈ processCandidate env fs rel c := by
  induction l with
  | nil => simp [candidateEvents] at h
  | cons c rest ih =>
    rw [candidateEvents, List.mem_append] at h
    rcases h with h | h
    · exact ⟨c, List.mem_cons_self c rest, h⟩
    · obtain ⟨c2, hc2, he⟩ := ih h
      exact ⟨c2, List.mem_cons_of_mem c hc2, he⟩

/-- Entry extraction distributes over trace append. -/
theorem entriesOf_append (a b : List Ev) :
    entriesOf (a ++ b) = entriesOf a ++ entriesOf b := by
  unfold entriesOf
  exact List.filterMap_append a b _

/-- Dropping the last element keeps membership. -/
theorem mem_of_mem_dropLastGz {α : Type} :
    ∀ (l : List α) (x : α), x ∈ l.dropLast → x ∈ l := by
  intro l
  induction l with
  | nil => intro x h; simp at h
  | cons a t ih =>
    intro x h
    cases t with
    | nil => simp [List.dropLast] at h
    | cons b t2 =>
      simp only [List.dropLast] at h
      rcases List.mem_cons.mp h with h | h
      · exact h ▸ List.mem_cons_self a (b :: t2)
      · exact List.mem_cons_of_mem a (ih x h)

/-- Every component surviving normalization already occurred in the input
and is none of "", ".", "..". -/
theorem mem_normAbsAux :
    ∀ (cs acc : List String) (x : String), x ∈ normAbsAux acc cs →
      x ∈ acc ∨ (x ∈ cs ∧ x ≠ "" ∧ x ≠ "." ∧ x ≠ "..") := by
  intro cs
  induction cs with
  | nil => intro acc x h; exact Or.inl h
  | cons c rest ih =>
    intro acc x h
    unfold normAbsAux at h
    by_cases h1 : c = "" ∨ c = "."
    · rw [if_pos h1] at h
      rcases ih acc x h with h2 | h2
      · exact Or.inl h2
      · exact Or.inr ⟨List.mem_cons_of_mem c h2.1, h2.2⟩
    · rw [if_neg h1] at h
      by_cases h2 : c = ".."
      · rw [if_pos h2] at h
        rcases ih acc.dropLast x h with h3 | h3
        · exact Or.inl (mem_of_mem_dropLastGz acc x h3)
        · exact Or.inr ⟨List.mem_cons_of_mem c h3.1, h3.2⟩
      · rw [if_neg h2] at h
        rcases ih (acc ++ [c]) x h with h3 | h3
        · rcases List.mem_append.mp h3 with h4 | h4
          · exact Or.inl h4
          · rw [List.mem_singleton] at h4
            subst h4
            push_neg at h1
            exact Or.inr ⟨List.mem_cons_self x rest, h1.1, h1.2, h2⟩
        · exact Or.inr ⟨List.mem_cons_of_mem c h3.1, h3.2⟩

/-- Normalization is the identity once no "", "." or ".." component is
left. -/
theorem normAbsAux_fixed :
    ∀ (cs acc : List String),
      (∀ c ∈ cs, c ≠ "" ∧ c ≠ "." ∧ c ≠ "..") → normAbsAux acc cs = acc ++ cs := by
  intro cs
  induction cs with
  | nil => intro acc _; simp [normAbsAux]
  | cons c rest ih =>
    intro acc hgood
    obtain ⟨hc1, hc2, hc3⟩ := hgood c (List.mem_cons_self c rest)
    unfold normAbsAux
    rw [if_neg (by tauto), if_neg hc3]
    rw [ih (acc ++ [c]) (fun d hd => hgood d (List.mem_cons_of_mem c hd))]
    simp

/-- Normalization is idempotent. -/
theorem normAbs_idem (cs : List String) : normAbs (normAbs cs) = normAbs cs := by
  unfold normAbs
  rw [normAbsAux_fixed _ []]
  · simp
  · intro c hc
    rcases mem_normAbsAux cs [] c hc with h | h
    · simp at h
    · exact h.2

/-- Neither the first group nor any later group of a split contains the
separator. -/
theorem splitOnCharAux_no_sep (sep : Char) :
    ∀ l : List Char, sep ∉ (splitOnCharAux sep l).1 ∧
      ∀ g ∈ (splitOnCharAux sep l).2, sep ∉ g := by
  intro l
  induction l with
  | nil => simp [splitOnCharAux]
  | cons c rest ih =>
    unfold splitOnCharAux
    by_cases hc : c = sep
    · rw [if_pos hc]
      refine ⟨by simp, ?_⟩
      intro g hg
      rcases List.mem_cons.mp hg with h | h
      · exact h ▸ ih.1
      · exact ih.2 g h
    · rw [if_neg hc]
      refine ⟨?_, ih.2⟩
      intro hmem
      rcases List.mem_cons.mp hmem with h | h
      · exact hc h.symm
      · exact ih.1 h

/-- Splitting a list that begins with the separator yields a leading empty
group. -/
theorem splitOnCharAux_cons_sep (sep : Char) (l : List Char) :
    splitOnCharAux sep (sep :: l) =
      ([], (splitOnCharAux sep l).1 :: (splitOnCharAux sep l).2) := by
  conv_lhs => unfold splitOnCharAux
  simp

/-- Splitting starts by consuming a separator-free prefix into the first
group. -/
theorem splitOnCharAux_append (sep : Char) :
    ∀ (g l : List Char), sep ∉ g →
      splitOnCharAux sep (g ++ l) =
        (g ++ (splitOnCharAux sep l).1, (splitOnCharAux sep l).2) := by
  intro g
  induction g with
  | nil => intro l _; simp
  | cons c g2 ih =>
    intro l hsep
    have hc : ¬c = sep := fun h => hsep (h ▸ List.mem_cons_self c g2)
    have h2 : sep ∉ g2 := fun h => hsep (List.mem_cons_of_mem c h)
    show splitOnCharAux sep (c :: (g2 ++ l)) = _
    conv_lhs => unfold splitOnCharAux
    rw [ih l h2, if_neg hc]
    simp

/-- Splitting undoes joining for a nonempty list of separator-free groups. -/
theorem splitOnChar_joinChar (sep : Char) :
    ∀ gs : List (List Char), gs ≠ [] → (∀ g ∈ gs, sep ∉ g) →
      splitOnChar sep (joinChar sep gs) = gs := by
  intro gs
  induction gs with
  | nil => intro h _; exact absurd rfl h
  | cons g gs2 ih =>
    intro _ hsep
    cases gs2 with
    | nil =>
      have hg : sep ∉ g := hsep g (List.mem_cons_self g [])
      have hj : joinChar sep [g] = g ++ [] := by simp [joinChar]
      rw [splitOnChar, hj, splitOnCharAux_append sep g [] hg]
      simp [splitOnCharAux]
    | cons g2 gs3 =>
      have hg : sep ∉ g := hsep g (List.mem_cons_self g (g2 :: gs3))
      have hrest : ∀ h ∈ g2 :: gs3, sep ∉ h :=
        fun h hh => hsep h (List.mem_cons_of_mem g hh)
      have ihr := ih (by simp) hrest
      have hj : joinChar sep (g :: g2 :: gs3) = g ++ sep :: joinChar sep (g2 :: gs3) := rfl
      rw [splitOnChar, hj, splitOnCharAux_append sep g _ hg, splitOnCharAux_cons_sep]
      rw [splitOnChar, List.cons.injEq] at ihr
      simp [ihr.1, ihr.2]

/-- Splitting after a leading separator keeps the remaining groups. -/
theorem splitOnChar_cons_sep (sep : Char) (l : List Char) :
    splitOnChar sep (sep :: l) = [] :: splitOnChar sep l := by
  rw [splitOnChar, splitOnCharAux_cons_sep]
  rfl

/-- Rebuilding a string from its character list is the identity. -/
theorem mk_toListGz (s : String) : String.mk s.toList = s := rfl

/-- Two strings with the same character lists are equal. -/
theorem string_eq_of_toList {s t : String} (h : s.toList = t.toList) : s = t := by
  rw [← mk_toListGz s, ← mk_toListGz t, h]

/-- Components produced by path parsing are nonempty, not ".", and free of
the separator. -/
theorem parsePath_comps_good (s : String) :
    ∀ c ∈ (parsePath s).comps, goodComp c := by
  intro c hc
  unfold parsePath at hc
  simp only [List.mem_map, List.mem_filter] at hc
  obtain ⟨g, ⟨hmem, hpred⟩, rfl⟩ := hc
  rw [decide_eq_true_iff] at hpred
  have hsep : '/' ∉ g := by
    rcases List.mem_cons.mp hmem with h | h
    · exact h ▸ (splitOnCharAux_no_sep '/' s.toList).1
    · exact (splitOnCharAux_no_sep '/' s.toList).2 g h
  refine ⟨?_, ?_, hsep⟩
  · intro h
    exact hpred.1 (by simpa using congrArg String.toList h)
  · intro h
    exact hpred.2 (by simpa using congrArg String.toList h)

/-- Components after user expansion come from the input path or from the
parsed home directory. -/
theorem expanduserP_comps_mem (env : Env) (p : PyPath) (x : String)
    (hx : x ∈ (expanduserP env p).comps) :
    x ∈ p.comps ∨ ∃ u, x ∈ (parsePath (env.homedir u)).comps := by
  obtain ⟨a, cs⟩ := p
  cases a with
  | true => exact Or.inl hx
  | false =>
    cases cs with
    | nil => exact Or.inl hx
    | cons c0 rest =>
      by_cases ht : startsWithTilde c0 = true
      · rw [show expanduserP env ⟨false, c0 :: rest⟩ =
            ⟨(parsePath (env.homedir (String.mk (c0.toList.drop 1)))).absolute,
              (parsePath (env.homedir (String.mk (c0.toList.drop 1)))).comps ++ rest⟩ by
          simp [expanduserP, ht]] at hx
        rcases List.mem_append.mp hx with h | h
        · exact Or.inr ⟨_, h⟩
        · exact Or.inl (List.mem_cons_of_mem c0 h)
      · rw [show expanduserP env ⟨false, c0 :: rest⟩ = ⟨false, c0 :: rest⟩ by
          simp [expanduserP, ht]] at hx
        exact Or.inl hx

/-- Resolution always returns an absolute path. -/
theorem resolveP_absolute (env : Env) (p : PyPath) :
    (resolveP env p).absolute = true := by
  unfold resolveP
  by_cases h : p.absolute = true
  · rw [if_pos h]
  · rw [if_neg h]

/-- User expansion leaves an absolute path unchanged. -/
theorem expanduserP_of_absolute (env : Env) (p : PyPath) (h : p.absolute = true) :
    expanduserP env p = p := by
  obtain ⟨a, cs⟩ := p
  cases a with
  | true => rfl
  | false => simp at h

/-- Components after resolution come from the input or the parsed working
directory, and are never "", "." or "..". -/
theorem resolveP_comps_mem (env : Env) (p : PyPath) (x : String)
    (hx : x ∈ (resolveP env p).comps) :
    (x ∈ p.comps ∨ x ∈ (parsePath env.cwd).comps) ∧
      x ≠ "" ∧ x ≠ "." ∧ x ≠ ".." := by
  unfold resolveP at hx
  by_cases h : p.absolute = true
  · rw [if_pos h] at hx
    rcases mem_normAbsAux p.comps [] x hx with h2 | h2
    · simp at h2
    · exact ⟨Or.inl h2.1, h2.2⟩
  · rw [if_neg h] at hx
    rcases mem_normAbsAux _ [] x hx with h2 | h2
    · simp at h2
    · rcases List.mem_append.mp h2.1 with h3 | h3
      · exact ⟨Or.inr h3, h2.2⟩
      · exact ⟨Or.inl h3, h2.2⟩

/-- Every component of a resolved candidate path is a genuine, normalized
component: nonempty, separator-free, and none of ".", "..". -/
theorem expand_path_comps (env : Env) (s : String) :
    ∀ x ∈ (expand_path env s).comps, goodComp x ∧ x ≠ ".." := by
  intro x hx
  obtain ⟨hmem, h1, h2, h3⟩ := resolveP_comps_mem env (expanduserP env (parsePath s)) x hx
  have hgood : goodComp x := by
    rcases hmem with h | h
    · rcases expanduserP_comps_mem env (parsePath s) x h with h4 | ⟨u, h4⟩
      · exact parsePath_comps_good s x h4
      · exact parsePath_comps_good (env.homedir u) x h4
    · exact parsePath_comps_good env.cwd x h
  exact ⟨hgood, h3⟩

/-- Printing an absolute path with good components and parsing it back is
the identity. -/
theorem parsePath_toStr_abs (cs : List String) (h : ∀ c ∈ cs, goodComp c) :
    parsePath (PyPath.toStr ⟨true, cs⟩) = ⟨true, cs⟩ := by
  have htl : (PyPath.toStr ⟨true, cs⟩).toList =
      '/' :: joinChar '/' (cs.map String.toList) := rfl
  cases cs with
  | nil => decide
  | cons c0 rest =>
    have hsepfree : ∀ g ∈ (c0 :: rest).map String.toList, '/' ∉ g := by
      intro g hg
      obtain ⟨c, hc, rfl⟩ := List.mem_map.mp hg
      exact (h c hc).2.2
    have hsplit : splitOnChar '/' (joinChar '/' ((c0 :: rest).map String.toList)) =
        (c0 :: rest).map String.toList :=
      splitOnChar_joinChar '/' _ (by simp) hsepfree
    unfold parsePath
    rw [htl, splitOnChar_cons_sep, hsplit]
    rw [PyPath.mk.injEq]
    constructor
    · rfl
    · rw [List.filter_cons]
      have hdrop : (decide (([] : List Char) ≠ [] ∧ ([] : List Char) ≠ ['.'])) = false := by
        decide
      rw [hdrop]
      have hkeep : ∀ g ∈ (c0 :: rest).map String.toList,
          (decide (g ≠ [] ∧ g ≠ ['.'])) = true := by
        intro g hg
        obtain ⟨c, hc, rfl⟩ := List.mem_map.mp hg
        rw [decide_eq_true_iff]
        constructor
        · intro he
          exact (h c hc).1 (string_eq_of_toList (by simpa using he))
        · intro he
          exact (h c hc).2.1 (string_eq_of_toList (by simpa using he))
      rw [List.filter_eq_self.mpr hkeep]
      rw [if_neg (by simp)]
      rw [List.map_map]
      have : (String.mk ∘ String.toList) = id := by
        funext c
        exact mk_toListGz c
      rw [this, List.map_id]

/-- C1: a candidate whose resolved form has the resolved working directory
as a strict ancestor — decided by the component-wise proper-prefix relation
on the normalized paths, never by a string prefix — receives as in-archive
target the resolved path made relative to the working directory
(`relative_to`), i.e. the resolved components with the working-directory
prefix dropped. -/
theorem claim_C1_inside_relative_target (env : Env) (c : String) :
    (inParents (relPathOf env) (expand_path env c) = true ↔
      (relPathOf env).absolute = (expand_path env c).absolute ∧
        (relPathOf env).comps <+: (expand_path env c).comps ∧
        (relPathOf env).comps.length < (expand_path env c).comps.length) ∧
    (inParents (relPathOf env) (expand_path env c) = true →
      targetOf (relPathOf env) (expand_path env c) =
        relative_to (expand_path env c) (relPathOf env) ∧
      (relative_to (expand_path env c) (relPathOf env)).comps =
        (expand_path env c).comps.drop (relPathOf env).comps.length) := by
  refine ⟨inParents_iff _ _, fun h => ⟨?_, rfl⟩⟩
  rw [targetOf, if_pos h]

/-- Witness for C1 at a concrete inside candidate: from `/repo`, the
candidate `sub/x.txt` resolves to `/repo/sub/x.txt` and is archived under
`sub/x.txt`. -/
theorem claim_C1_inside_relative_target_witness :
    inParents (relPathOf envW) (expand_path envW "sub/x.txt") = true ∧
    targetOf (relPathOf envW) (expand_path envW "sub/x.txt") =
      relative_to (expand_path envW "sub/x.txt") (relPathOf envW) ∧
    (relative_to (expand_path envW "sub/x.txt") (relPathOf envW)).comps =
      ["sub", "x.txt"] := by
  have h := (claim_C1_inside_relative_target envW "sub/x.txt").2 (by decide)
  exact ⟨by decide, h.1, by decide⟩

/-- C5: a candidate whose resolved form is not a descendant of the working
directory is archived under its final path component (base name) alone: the
target is the bare name, and the write (after the flatten notice) uses that
name, discarding all directory structure. -/
theorem claim_C5_outside_basename (env : Env) (fs : FS) (c : String)
    (hout : inParents (relPathOf env) (expand_path env c) = false)
    (hfile : fs.isfile (expand_path env c) = true) :
    targetOf (relPathOf env) (expand_path env c) =
      ⟨false, [(expand_path env c).name]⟩ ∧
    processCandidate env fs (relPathOf env) c =
      [Ev.noticeFlatten (expand_path env c),
        Ev.writeEntry (expand_path env c) ⟨false, [(expand_path env c).name]⟩
          (fs.content (expand_path env c)),
        Ev.noticeAdded (expand_path env c)] := by
  have ht : targetOf (relPathOf env) (expand_path env c) =
      ⟨false, [(expand_path env c).name]⟩ := by
    rw [targetOf, if_neg (by simp [hout])]
  refine ⟨ht, ?_⟩
  rw [processCandidate]
  rw [if_pos hfile, if_neg (by simp [hout]), ht]
  rfl

/-- Witness for C5: from `/repo`, the outside candidate `/etc/passwd` is
flattened to the bare name `passwd`. -/
theorem claim_C5_outside_basename_witness :
    targetOf (relPathOf envW) (expand_path envW "/etc/passwd") =
      ⟨false, ["passwd"]⟩ ∧
    processCandidate envW fsOutside (relPathOf envW) "/etc/passwd" =
      [Ev.noticeFlatten ⟨true, ["etc", "passwd"]⟩,
        Ev.writeEntry ⟨true, ["etc", "passwd"]⟩ ⟨false, ["passwd"]⟩ [1],
        Ev.noticeAdded ⟨true, ["etc", "passwd"]⟩] := by
  have h := claim_C5_outside_basename envW fsOutside "/etc/passwd"
    (by decide) (by decide)
  have he : expand_path envW "/etc/passwd" = ⟨true, ["etc", "passwd"]⟩ := by decide
  constructor
  · rw [h.1, he]
    decide
  · rw [h.2, he]
    decide

/-- C2: when the archive path already exists and overwrite is off, the
build fails with the dedicated `FileExistsError` before producing any
effect: the archive is never opened and nothing is written, so the existing
file is untouched (the returned trace is empty). -/
theorem claim_C2_preexisting_output (env : Env) (fs : FS) (files : List String)
    (zp : PyPath) (cm : String) (hex : fs.pathExists zp = true) :
    create_zip_file env fs files zp cm false = ([], .error .fileExists) := by
  rw [create_zip_file, if_pos ⟨rfl, hex⟩]

/-- Witness for C2 on a filesystem where the archive path exists. -/
theorem claim_C2_preexisting_output_witness :
    create_zip_file envW fsAllExist ["a.txt"] ⟨false, ["out.zip"]⟩ "c" false =
      ([], .error .fileExists) :=
  claim_C2_preexisting_output envW fsAllExist ["a.txt"] ⟨false, ["out.zip"]⟩ "c" rfl

/-- C6: a candidate whose resolved form is not a regular file at build time
produces no archive entry — the entry list equals the one obtained without
that candidate — a skip notice is emitted for it, the rest of the
candidates are still processed, and the build completes successfully. -/
theorem claim_C6_skip_missing (env : Env) (fs : FS) (pre post : List String)
    (c : String) (zp : PyPath) (cm : String) (ow : Bool)
    (hok : ¬(ow = false ∧ fs.pathExists zp = true))
    (hmiss : fs.isfile (expand_path env c) = false) :
    (create_zip_file env fs (pre ++ c :: post) zp cm ow).2 = .ok () ∧
    Ev.noticeSkip (expand_path env c) ∈
      (create_zip_file env fs (pre ++ c :: post) zp cm ow).1 ∧
    entriesOf (create_zip_file env fs (pre ++ c :: post) zp cm ow).1 =
      entriesOf (create_zip_file env fs (pre ++ post) zp cm ow).1 := by
  have hpc : processCandidate env fs (relPathOf env) c =
      [Ev.noticeSkip (expand_path env c)] := by
    rw [processCandidate, if_neg (by simp [hmiss])]
  rw [create_zip_file, if_neg hok, create_zip_file, if_neg hok]
  have hsplit : candidateEvents env fs (relPathOf env) (pre ++ c :: post) =
      candidateEvents env fs (relPathOf env) pre ++
        (Ev.noticeSkip (expand_path env c) ::
          candidateEvents env fs (relPathOf env) post) := by
    rw [candidateEvents_append]
    rw [show candidateEvents env fs (relPathOf env) (c :: post) =
        processCandidate env fs (relPathOf env) c ++
          candidateEvents env fs (relPathOf env) post from rfl]
    rw [hpc]
    rfl
  refine ⟨rfl, ?_, ?_⟩
  · rw [hsplit]
    simp
  · dsimp only
    have h1 : ∀ t : List Ev, entriesOf (Ev.openArchive zp cm :: t) = entriesOf t :=
      fun t => rfl
    have h2 : entriesOf (Ev.noticeSkip (expand_path env c) ::
        candidateEvents env fs (relPathOf env) post) =
        entriesOf (candidateEvents env fs (relPathOf env) post) := rfl
    rw [hsplit]
    simp only [candidateEvents_append, entriesOf_append, h1, h2]

/-- Witness for C6: with only `/repo/a.txt` on disk, inserting the missing
candidate `missing.txt` changes no entry, adds a skip notice, and the build
still succeeds. -/
theorem claim_C6_skip_missing_witness :
    (create_zip_file envW fsOneFile (["a.txt"] ++ "missing.txt" :: [])
        ⟨false, ["out.zip"]⟩ "cm" true).2 = .ok () ∧
    Ev.noticeSkip (expand_path envW "missing.txt") ∈
      (create_zip_file envW fsOneFile (["a.txt"] ++ "missing.txt" :: [])
        ⟨false, ["out.zip"]⟩ "cm" true).1 ∧
    entriesOf (create_zip_file envW fsOneFile (["a.txt"] ++ "missing.txt" :: [])
        ⟨false, ["out.zip"]⟩ "cm" true).1 =
      entriesOf (create_zip_file envW fsOneFile (["a.txt"] ++ [])
        ⟨false, ["out.zip"]⟩ "cm" true).1 :=
  claim_C6_skip_missing envW fsOneFile ["a.txt"] [] "missing.txt"
    ⟨false, ["out.zip"]⟩ "cm" true (by simp) (by decide)

/-- C9: path resolution is idempotent — re-resolving the rendered result of
`expand_path` yields the same path (the model is a pure function, so it is
side-effect-free by construction). -/
theorem claim_C9_resolution_idempotent (env : Env) (s : String) :
    expand_path env ((expand_path env s).toStr) = expand_path env s := by
  have habs : (expand_path env s).absolute = true := resolveP_absolute env _
  have hgood := expand_path_comps env s
  have hq : expand_path env s = ⟨true, (expand_path env s).comps⟩ := by
    cases hE : expand_path env s with
    | mk a cs =>
      rw [hE] at habs
      simp only at habs
      rw [habs]
  have hparse : parsePath ((expand_path env s).toStr) = expand_path env s := by
    conv_lhs => rw [hq]
    rw [parsePath_toStr_abs _ (fun c hc => (hgood c hc).1), ← hq]
  show resolveP env (expanduserP env (parsePath ((expand_path env s).toStr))) =
    expand_path env s
  rw [hparse, expanduserP_of_absolute env _ habs]
  rw [resolveP, if_pos habs]
  rw [show normAbs (expand_path env s).comps = (expand_path env s).comps from by
    rw [normAbs, normAbsAux_fixed _ []
      (fun x hx => ⟨(hgood x hx).1.1, (hgood x hx).1.2.1, (hgood x hx).2⟩)]
    rfl]
  exact hq.symm

/-- Counterexample to C4 as stated: on the concrete environment `envW`
(where the variable `HOME` is set to `/home/user`), the source's resolver
leaves the environment-variable reference `$HOME` in the input
`$HOME/x` verbatim as a path component — it performs no variable
expansion — while the resolver following the spec's words expands it. -/
theorem claim_C4_counterexample :
    expand_path envW "$HOME/x" = ⟨true, ["repo", "$HOME", "x"]⟩ ∧
    resolveSpec envW "$HOME/x" = ⟨true, ["home", "user", "x"]⟩ ∧
    "$HOME" ∈ (expand_path envW "$HOME/x").comps ∧
    expand_path envW "$HOME/x" ≠ resolveSpec envW "$HOME/x" := by
  refine ⟨by decide, by decide, by decide, by decide⟩

/-- C4 amended: for every input path string, the path resolver expands
user-home (`~`) references (but not environment-variable references, which
it leaves verbatim) and returns an absolute, normalized path — resolved
against the current working directory when the input (after user
expansion) was relative — and, being a pure function of the path string
and the process environment, never requires the path to exist. -/
theorem claim_C4_amended_resolver (env : Env) (s : String) :
    expand_path env s = resolveP env (expanduserP env (parsePath s)) ∧
    (expand_path env s).absolute = true ∧
    normAbs (expand_path env s).comps = (expand_path env s).comps ∧
    ((expanduserP env (parsePath s)).absolute = false →
      (expand_path env s).comps =
        normAbs ((parsePath env.cwd).comps ++ (expanduserP env (parsePath s)).comps)) := by
  refine ⟨rfl, resolveP_absolute env _, ?_, ?_⟩
  · have hgood := expand_path_comps env s
    rw [normAbs, normAbsAux_fixed _ []
      (fun x hx => ⟨(hgood x hx).1.1, (hgood x hx).1.2.1, (hgood x hx).2⟩)]
    rfl
  · intro hrel
    show (resolveP env (expanduserP env (parsePath s))).comps = _
    rw [resolveP, if_neg (by simp [hrel])]

/-- Witness for the amended C4 at the relative input `a/./b/../c`: the
result is absolute, normalized, and equals the working directory joined
with the input. -/
theorem claim_C4_amended_resolver_witness :
    (expand_path envW "a/./b/../c").absolute = true ∧
    (expand_path envW "a/./b/../c").comps =
      normAbs ((parsePath envW.cwd).comps ++
        (expanduserP envW (parsePath "a/./b/../c")).comps) ∧
    (expand_path envW "a/./b/../c").comps = ["repo", "a", "c"] := by
  have h := claim_C4_amended_resolver envW "a/./b/../c"
  exact ⟨h.2.1, h.2.2.2 (by decide), by decide⟩

/-- C7: the missing-required-input condition raises the dedicated
`MissingToCommitException` error kind; it and the pre-existing-output
error kind (`FileExistsError`) are distinct constructors, mapped by the
boundary to the two distinct stable non-zero exit codes 2 and 4, while a
successful run exits with 0. -/
theorem claim_C7_exit_codes (env : Env) (fs : FS) (sys : Sys) (a : Args) :
    (a.text_file = none → truthy a.commit = false →
      (run env fs sys a).2 = .error .missingToCommit) ∧
    ((run env fs sys a).2 = .error .missingToCommit →
      (main env fs sys a).2 = EXIT_CODE_NOT_ENOUGH_ARGUMENTS) ∧
    ((run env fs sys a).2 = .error .fileExists →
      (main env fs sys a).2 = EXIT_CODE_FILE_EXISTS) ∧
    ((run env fs sys a).2 = .ok () → (main env fs sys a).2 = 0) ∧
    GErr.missingToCommit ≠ GErr.fileExists ∧
    EXIT_CODE_NOT_ENOUGH_ARGUMENTS ≠ EXIT_CODE_FILE_EXISTS ∧
    EXIT_CODE_NOT_ENOUGH_ARGUMENTS ≠ 0 ∧ EXIT_CODE_FILE_EXISTS ≠ 0 := by
  refine ⟨?_, ?_, ?_, ?_, by decide, by decide, by decide, by decide⟩
  · intro ht hc
    rw [run, ht, hc]
    simp
  · intro h
    rw [main, h]
  · intro h
    rw [main, h]
  · intro h
    rw [main, h]

/-- Witness for C7: invoking the tool with neither a manifest nor a
reference raises the missing-input error kind and exits with code 2. -/
theorem claim_C7_exit_codes_witness :
    (run envW fsOneFile sysW argsMissing).2 = .error .missingToCommit ∧
    (main envW fsOneFile sysW argsMissing).2 = EXIT_CODE_NOT_ENOUGH_ARGUMENTS := by
  have h := claim_C7_exit_codes envW fsOneFile sysW argsMissing
  have h1 := h.1 rfl rfl
  exact ⟨h1, h.2.1 h1⟩

/-- Every event of an archive build is the archive opening, the archive
closing, or a candidate-loop event. -/
theorem mem_create_zip_file (env : Env) (fs : FS) (files : List String)
    (zp : PyPath) (cm : String) (ow : Bool) (e : Ev)
    (h : e ∈ (create_zip_file env fs files zp cm ow).1) :
    e = Ev.openArchive zp cm ∨ e = Ev.closeArchive ∨
      ∃ c ∈ files, e ∈ processCandidate env fs (relPathOf env) c := by
  rw [create_zip_file] at h
  by_cases hpre : ow = false ∧ fs.pathExists zp = true
  · rw [if_pos hpre] at h
    simp at h
  · rw [if_neg hpre] at h
    dsimp only at h
    rcases List.mem_append.mp h with h1 | h1
    · rcases List.mem_cons.mp h1 with h2 | h2
      · exact Or.inl h2
      · obtain ⟨c, hc, he⟩ := mem_candidateEvents env fs (relPathOf env) files e h2
        exact Or.inr (Or.inr ⟨c, hc, he⟩)
    · rw [List.mem_singleton] at h1
      exact Or.inr (Or.inl h1)

/-- An archive build never runs a subprocess and never closes the manifest
handle. -/
theorem create_zip_file_events_shape (env : Env) (fs : FS) (files : List String)
    (zp : PyPath) (cm : String) (ow : Bool) :
    ∀ e ∈ (create_zip_file env fs files zp cm ow).1,
      isGitExecEv e = false ∧ isCloseManifestEv e = false := by
  intro e he
  rcases mem_create_zip_file env fs files zp cm ow e he with h | h | ⟨c, _, h2⟩
  · subst h
    exact ⟨rfl, rfl⟩
  · subst h
    exact ⟨rfl, rfl⟩
  · rcases mem_processCandidate env fs (relPathOf env) c e h2 with
      ⟨p, t, d, h3⟩ | ⟨p, h3⟩ | ⟨p, h3⟩ | ⟨p, h3⟩ <;> subst h3 <;> exact ⟨rfl, rfl⟩

/-- The branch probe runs subprocesses only. -/
theorem mem_get_current_branch (sys : Sys) (e : Ev)
    (h : e ∈ (get_current_branch sys).1) : ∃ c, e = Ev.gitExec c := by
  rw [get_current_branch] at h
  rcases List.mem_append.mp h with h1 | h1
  · rw [show (get_git_version sys).1 = [Ev.gitExec ["git", "--version"]] from rfl] at h1
    rw [List.mem_singleton] at h1
    exact ⟨_, h1⟩
  · rw [List.mem_singleton] at h1
    exact ⟨_, h1⟩

/-- C8 amended: in the packaged implementation the manifest file handle is
never explicitly closed by `run` — on no exit path does a close of the
manifest occur (the trace contains no manifest-close event), although in
manifest mode the handle is opened whenever the file is readable; release
is left to the language runtime. -/
theorem claim_C8_amended_never_closed (env : Env) (fs : FS) (sys : Sys) (a : Args) :
    ((run env fs sys a).1.countP isCloseManifestEv) = 0 ∧
    (∀ tf txt, a.text_file = some tf → fs.fileText tf = some txt →
      Ev.openManifest tf ∈ (run env fs sys a).1) := by
  constructor
  · rw [List.countP_eq_zero]
    intro e he
    rcases ha : a.text_file with _ | tf
    · rw [run, ha] at he
      by_cases hc : truthy a.commit = false
      · rw [if_pos hc] at he
        exact absurd he (List.not_mem_nil e)
      · rw [if_neg hc] at he
        rcases List.mem_append.mp he with h1 | h1
        · rcases List.mem_append.mp h1 with h2 | h2
          · by_cases h3 : truthy a.commit2 = true
            · rw [if_pos h3] at h2
              rcases List.mem_append.mp h2 with h4 | h4
              · obtain ⟨c, rfl⟩ := mem_get_current_branch sys e h4
                simp [isCloseManifestEv]
              · have h5 : e = Ev.gitExec ["git", "rev-parse", "HEAD"] :=
                  List.mem_singleton.mp h4
                subst h5
                simp [isCloseManifestEv]
            · rw [if_neg h3] at h2
              exact absurd h2 (List.not_mem_nil e)
          · have h5 := List.mem_singleton.mp h2
            subst h5
            simp [isCloseManifestEv]
        · have h5 := (create_zip_file_events_shape env fs _ a.zip_path _ a.force e h1).2
          simp [h5]
    · simp only [run, ha] at he
      rcases hf : fs.fileText tf with _ | txt
      · rw [hf] at he
        exact absurd he (List.not_mem_nil e)
      · rw [hf] at he
        rcases List.mem_cons.mp he with h1 | h1
        · subst h1
          simp [isCloseManifestEv]
        · have h5 := (create_zip_file_events_shape env fs _ a.zip_path _ a.force e h1).2
          simp [h5]
  · intro tf txt h1 h2
    simp only [run, h1, h2]
    exact List.mem_cons_self _ _

/-- Counterexample to C8 as stated: on a successful manifest-mode run the
trace opens the manifest handle but contains no manifest-close event, so
the handle is not closed after all lines are consumed. -/
theorem claim_C8_counterexample :
    (run envW fsManifest sysW argsManifest).2 = .ok () ∧
    Ev.openManifest manifestPath ∈ (run envW fsManifest sysW argsManifest).1 ∧
    Ev.closeManifest ∉ (run envW fsManifest sysW argsManifest).1 :=
  ⟨rfl, by decide, by decide⟩

/-- Witness for the amended C8: the readable manifest of the round-trip
scenario is indeed opened. -/
theorem claim_C8_amended_never_closed_witness :
    Ev.openManifest manifestPath ∈ (run envW fsManifest sysW argsManifest).1 :=
  (claim_C8_amended_never_closed envW fsManifest sysW argsManifest).2
    manifestPath "a.txt\nsub/b.txt\n" rfl (by decide)

/-- C10: in manifest mode the run is independent of the two reference
arguments — two runs differing only in `commit`/`commit2` produce the
identical trace and result (same candidates, same archive comment, same
entries), and no subprocess is ever invoked. -/
theorem claim_C10_manifest_mode_independent (env : Env) (fs : FS) (sys : Sys)
    (zp tf : PyPath) (f : Bool) (c1 c2 c1' c2' : Option String) :
    run env fs sys ⟨zp, c1, c2, some tf, f⟩ = run env fs sys ⟨zp, c1', c2', some tf, f⟩ ∧
    ((run env fs sys ⟨zp, c1, c2, some tf, f⟩).1.countP isGitExecEv) = 0 := by
  refine ⟨rfl, ?_⟩
  rw [List.countP_eq_zero]
  intro e he
  simp only [run] at he
  rcases hf : fs.fileText tf with _ | txt
  · rw [hf] at he
    exact absurd he (List.not_mem_nil e)
  · rw [hf] at he
    rcases List.mem_cons.mp he with h1 | h1
    · subst h1
      simp [isGitExecEv]
    · have h5 := (create_zip_file_events_shape env fs _ zp _ f e h1).1
      simp [h5]

/-- C3: the manifest round-trip fails in the code.  Building from a
newline-terminated manifest listing `a.txt` and `sub/b.txt`, run from
`/repo` where both regular files exist, produces an archive with NO
entries: `run` iterates the open file handle, so each candidate keeps its
trailing newline ("a.txt\n"), resolves to a path that is not a file, and
is skipped — contradicting the intended (and documented) behavior of
adding the listed files. -/
theorem claim_C3_manifest_roundtrip_bug :
    (run envW fsManifest sysW argsManifest).2 = .ok () ∧
    pyLines "a.txt\nsub/b.txt\n" = ["a.txt\n", "sub/b.txt\n"] ∧
    entriesOf (run envW fsManifest sysW argsManifest).1 = [] ∧
    Ev.noticeSkip ⟨true, ["repo", "a.txt\n"]⟩ ∈
      (run envW fsManifest sysW argsManifest).1 ∧
    Ev.noticeSkip ⟨true, ["repo", "sub", "b.txt\n"]⟩ ∈
      (run envW fsManifest sysW argsManifest).1 ∧
    fsManifest.isfile ⟨true, ["repo", "a.txt"]⟩ = true ∧
    fsManifest.isfile ⟨true, ["repo", "sub", "b.txt"]⟩ = true :=
  ⟨rfl, rfl, rfl, by decide, by decide, by decide, by decide⟩

end Gz
